import Mathlib

/-!
Shallow embedding of `src/utils/searchUtils.ts` (a fuzzy product-search
utility: text normalization, tokenization, matching, product filtering).

JavaScript strings are modelled as `List Char` (Unicode scalar values); a
possibly-`undefined` string argument is `Option Str` with `none` for
`undefined`.  The platform functions `String.prototype.toLowerCase` and
`String.prototype.normalize('NFD')` are modelled by explicit finite tables
covering the character ranges this code base exercises (ASCII, Greek, and
common Latin accented letters), identity elsewhere.
-/

namespace SearchUtils

abbrev Str := List Char

/-- Truthiness of a JS string value: `undefined` and `""` are falsy. -/
def falsyS (o : Option Str) : Bool :=
  match o with
  | none => true
  | some s => s.isEmpty

/-- The JS whitespace class (`\s` and the set trimmed by `String.trim`). -/
def isJsWS (c : Char) : Bool :=
  c = ' ' || c = '\t' || c = '\n' || c = '\r' ||
  c.toNat = 0xB || c.toNat = 0xC || c.toNat = 0xA0 || c.toNat = 0x1680 ||
  (0x2000 ≤ c.toNat && c.toNat ≤ 0x200A) ||
  c.toNat = 0x2028 || c.toNat = 0x2029 || c.toNat = 0x202F ||
  c.toNat = 0x205F || c.toNat = 0x3000 || c.toNat = 0xFEFF

/-- Model of `String.prototype.toLowerCase` on the ranges exercised here:
ASCII `A`–`Z` and the Greek block (plain and accented capitals).
Characters outside the table are left unchanged. -/
def lowerTable : List (Char × Char) :=
  [('A','a'),('B','b'),('C','c'),('D','d'),('E','e'),('F','f'),('G','g'),
   ('H','h'),('I','i'),('J','j'),('K','k'),('L','l'),('M','m'),('N','n'),
   ('O','o'),('P','p'),('Q','q'),('R','r'),('S','s'),('T','t'),('U','u'),
   ('V','v'),('W','w'),('X','x'),('Y','y'),('Z','z'),
   -- Greek capitals Alpha..Rho, Sigma..Omega
   (Char.ofNat 0x391, Char.ofNat 0x3B1),(Char.ofNat 0x392, Char.ofNat 0x3B2),
   (Char.ofNat 0x393, Char.ofNat 0x3B3),(Char.ofNat 0x394, Char.ofNat 0x3B4),
   (Char.ofNat 0x395, Char.ofNat 0x3B5),(Char.ofNat 0x396, Char.ofNat 0x3B6),
   (Char.ofNat 0x397, Char.ofNat 0x3B7),(Char.ofNat 0x398, Char.ofNat 0x3B8),
   (Char.ofNat 0x399, Char.ofNat 0x3B9),(Char.ofNat 0x39A, Char.ofNat 0x3BA),
   (Char.ofNat 0x39B, Char.ofNat 0x3BB),(Char.ofNat 0x39C, Char.ofNat 0x3BC),
   (Char.ofNat 0x39D, Char.ofNat 0x3BD),(Char.ofNat 0x39E, Char.ofNat 0x3BE),
   (Char.ofNat 0x39F, Char.ofNat 0x3BF),(Char.ofNat 0x3A0, Char.ofNat 0x3C0),
   (Char.ofNat 0x3A1, Char.ofNat 0x3C1),(Char.ofNat 0x3A3, Char.ofNat 0x3C3),
   (Char.ofNat 0x3A4, Char.ofNat 0x3C4),(Char.ofNat 0x3A5, Char.ofNat 0x3C5),
   (Char.ofNat 0x3A6, Char.ofNat 0x3C6),(Char.ofNat 0x3A7, Char.ofNat 0x3C7),
   (Char.ofNat 0x3A8, Char.ofNat 0x3C8),(Char.ofNat 0x3A9, Char.ofNat 0x3C9),
   -- Greek accented capitals
   (Char.ofNat 0x386, Char.ofNat 0x3AC),(Char.ofNat 0x388, Char.ofNat 0x3AD),
   (Char.ofNat 0x389, Char.ofNat 0x3AE),(Char.ofNat 0x38A, Char.ofNat 0x3AF),
   (Char.ofNat 0x38C, Char.ofNat 0x3CC),(Char.ofNat 0x38E, Char.ofNat 0x3CD),
   (Char.ofNat 0x38F, Char.ofNat 0x3CE),(Char.ofNat 0x3AA, Char.ofNat 0x3CA),
   (Char.ofNat 0x3AB, Char.ofNat 0x3CB)]

def jsToLower (c : Char) : Char :=
  (List.lookup c lowerTable).getD c

/-- Model of Unicode NFD decomposition on the precomposed characters this
code base can meet (Greek accented letters, common Latin accented letters);
identity elsewhere. -/
def nfdTable : List (Char × List Char) :=
  [ -- Greek lowercase accented
   (Char.ofNat 0x3AC, [Char.ofNat 0x3B1, Char.ofNat 0x301]),
   (Char.ofNat 0x3AD, [Char.ofNat 0x3B5, Char.ofNat 0x301]),
   (Char.ofNat 0x3AE, [Char.ofNat 0x3B7, Char.ofNat 0x301]),
   (Char.ofNat 0x3AF, [Char.ofNat 0x3B9, Char.ofNat 0x301]),
   (Char.ofNat 0x3CC, [Char.ofNat 0x3BF, Char.ofNat 0x301]),
   (Char.ofNat 0x3CD, [Char.ofNat 0x3C5, Char.ofNat 0x301]),
   (Char.ofNat 0x3CE, [Char.ofNat 0x3C9, Char.ofNat 0x301]),
   (Char.ofNat 0x390, [Char.ofNat 0x3B9, Char.ofNat 0x308, Char.ofNat 0x301]),
   (Char.ofNat 0x3B0, [Char.ofNat 0x3C5, Char.ofNat 0x308, Char.ofNat 0x301]),
   (Char.ofNat 0x3CA, [Char.ofNat 0x3B9, Char.ofNat 0x308]),
   (Char.ofNat 0x3CB, [Char.ofNat 0x3C5, Char.ofNat 0x308]),
   -- Greek accented capitals
   (Char.ofNat 0x386, [Char.ofNat 0x391, Char.ofNat 0x301]),
   (Char.ofNat 0x388, [Char.ofNat 0x395, Char.ofNat 0x301]),
   (Char.ofNat 0x389, [Char.ofNat 0x397, Char.ofNat 0x301]),
   (Char.ofNat 0x38A, [Char.ofNat 0x399, Char.ofNat 0x301]),
   (Char.ofNat 0x38C, [Char.ofNat 0x39F, Char.ofNat 0x301]),
   (Char.ofNat 0x38E, [Char.ofNat 0x3A5, Char.ofNat 0x301]),
   (Char.ofNat 0x38F, [Char.ofNat 0x3A9, Char.ofNat 0x301]),
   (Char.ofNat 0x3AA, [Char.ofNat 0x399, Char.ofNat 0x308]),
   (Char.ofNat 0x3AB, [Char.ofNat 0x3A5, Char.ofNat 0x308]),
   -- Latin lowercase accented
   (Char.ofNat 0xE0, ['a', Char.ofNat 0x300]), (Char.ofNat 0xE1, ['a', Char.ofNat 0x301]),
   (Char.ofNat 0xE4, ['a', Char.ofNat 0x308]), (Char.ofNat 0xE7, ['c', Char.ofNat 0x327]),
   (Char.ofNat 0xE8, ['e', Char.ofNat 0x300]), (Char.ofNat 0xE9, ['e', Char.ofNat 0x301]),
   (Char.ofNat 0xEB, ['e', Char.ofNat 0x308]), (Char.ofNat 0xEC, ['i', Char.ofNat 0x300]),
   (Char.ofNat 0xED, ['i', Char.ofNat 0x301]), (Char.ofNat 0xEF, ['i', Char.ofNat 0x308]),
   (Char.ofNat 0xF1, ['n', Char.ofNat 0x303]), (Char.ofNat 0xF2, ['o', Char.ofNat 0x300]),
   (Char.ofNat 0xF3, ['o', Char.ofNat 0x301]), (Char.ofNat 0xF6, ['o', Char.ofNat 0x308]),
   (Char.ofNat 0xF9, ['u', Char.ofNat 0x300]), (Char.ofNat 0xFA, ['u', Char.ofNat 0x301]),
   (Char.ofNat 0xFC, ['u', Char.ofNat 0x308])]

def jsNFD (c : Char) : List Char :=
  (List.lookup c nfdTable).getD [c]

def nfdStr (s : Str) : Str := s.flatMap jsNFD

/-- JS `String.prototype.includes`: the needle occurs contiguously. -/
def containsSub (needle : Str) : Str → Bool
  | [] => needle.isEmpty
  | c :: rest => needle.isPrefixOf (c :: rest) || containsSub needle rest

/-- Combining diacritical marks U+0300–U+036F (the class of the source's
`.replace(/[̀-ͯ]/g, '')`). -/
def isMark (c : Char) : Bool :=
  0x300 ≤ c.toNat && c.toNat ≤ 0x36F

def stripMarks (s : Str) : Str := s.filter (fun c => !(isMark c))

/-- One `.replace(/X/g, 'y')` step where X is a single character. -/
def replaceAll (a b : Char) (s : Str) : Str :=
  s.map (fun c => if c = a then b else c)

/-- The source's fixed table of Greek letter folds, in source order:
accented vowels to base vowels, dialytika-accent combinations, and the
final-sigma fold. -/
def greekPairs : List (Char × Char) :=
  [(Char.ofNat 0x3AC, Char.ofNat 0x3B1),  -- accented alpha
   (Char.ofNat 0x3AD, Char.ofNat 0x3B5),  -- accented epsilon
   (Char.ofNat 0x3AE, Char.ofNat 0x3B7),  -- accented eta
   (Char.ofNat 0x3AF, Char.ofNat 0x3B9),  -- accented iota
   (Char.ofNat 0x3CC, Char.ofNat 0x3BF),  -- accented omicron
   (Char.ofNat 0x3CD, Char.ofNat 0x3C5),  -- accented upsilon
   (Char.ofNat 0x3CE, Char.ofNat 0x3C9),  -- accented omega
   (Char.ofNat 0x390, Char.ofNat 0x3B9),  -- iota with dialytika and accent
   (Char.ofNat 0x3B0, Char.ofNat 0x3C5),  -- upsilon with dialytika and accent
   (Char.ofNat 0x3C2, Char.ofNat 0x3C3)]  -- final sigma to regular sigma

/-- The ten sequential `.replace(/c/g, 'd')` calls of the source. -/
def greekFold (s : Str) : Str :=
  greekPairs.foldl (fun acc p => replaceAll p.1 p.2 acc) s

/-- `.replace(/[/\\]/g, ' ')`: slashes to spaces. -/
def slashToSpace (s : Str) : Str :=
  s.map (fun c => if c = '/' || c = '\\' then ' ' else c)

/-- `String.prototype.trim`. -/
def jsTrim (s : Str) : Str :=
  ((s.dropWhile isJsWS).reverse.dropWhile isJsWS).reverse

/-- `.replace(/\s+/g, ' ')`: each maximal run of whitespace becomes a
single space. -/
def collapseWS : Str → Str
  | [] => []
  | [c] => if isJsWS c then [' '] else [c]
  | c1 :: c2 :: rest =>
    if isJsWS c1 then
      (if isJsWS c2 then collapseWS (c2 :: rest)
       else ' ' :: collapseWS (c2 :: rest))
    else c1 :: collapseWS (c2 :: rest)

/-- The normalization pipeline applied to a truthy string, in source
order: lowercase, trim, NFD, strip marks, Greek folds, slashes to spaces,
collapse whitespace. -/
def normalizeCore (s : Str) : Str :=
  collapseWS (slashToSpace (greekFold (stripMarks (nfdStr (jsTrim (s.map jsToLower))))))

/-- `normalizeSearchText`: `if (!text) return ''` then the pipeline. -/
def normalizeSearchText (text : Option Str) : Str :=
  match text with
  | none => []
  | some s => if s = [] then [] else normalizeCore s

/-- The separator class of `tokenize`'s split regex `[\s\-\/,]+`. -/
def isSep (c : Char) : Bool :=
  isJsWS c || c = '-' || c = '/' || c = ','

/-- JS `String.prototype.split` on the regex `[\s\-\/,]+`: fields between
maximal separator runs; a leading or trailing run yields an empty field. -/
def splitSeps : Str → List Str
  | [] => [[]]
  | [c] => if isSep c then [[], []] else [[c]]
  | c1 :: c2 :: rest =>
    if isSep c1 then
      (if isSep c2 then splitSeps (c2 :: rest)
       else [] :: splitSeps (c2 :: rest))
    else
      match splitSeps (c2 :: rest) with
      | [] => [[c1]]
      | h :: t => (c1 :: h) :: t

/-- `tokenize`: normalize, split, keep tokens of length at least 2. -/
def tokenize (text : Option Str) : List Str :=
  (splitSeps (normalizeSearchText text)).filter (fun tok => 2 ≤ tok.length)

/-- `matchesSearch`: falsy guards, minimum length, substring strategy,
then token strategy (every search token must match some target token). -/
def matchesSearch (searchTerm targetText : Option Str) : Bool :=
  if falsyS searchTerm || falsyS targetText then false
  else
    let normalizedSearch := normalizeSearchText searchTerm
    let normalizedTarget := normalizeSearchText targetText
    if normalizedSearch.length < 2 then false
    else if containsSub normalizedSearch normalizedTarget then true
    else
      let searchTokens := tokenize searchTerm
      if searchTokens.length = 0 then false
      else
        let targetTokens := tokenize targetText
        if targetTokens.length = 0 then false
        else
          searchTokens.all (fun searchToken =>
            targetTokens.any (fun targetToken =>
              targetToken = searchToken ||
              (searchToken.isPrefixOf targetToken && 3 ≤ searchToken.length) ||
              (containsSub searchToken targetToken && 4 ≤ searchToken.length)))

/-- `matchesSearchArray`: falsy/empty guards, then `items.some`. -/
def matchesSearchArray (searchTerm : Option Str) (items : Option (List Str)) : Bool :=
  if falsyS searchTerm then false
  else
    match items with
    | none => false
    | some its =>
      if its.length = 0 then false
      else its.any (fun item => matchesSearch searchTerm (some item))

structure SearchableProduct where
  name : Str
  nameEn : Str
  description : Str
  descriptionEn : Option Str
  colors : List Str
  materials : List Str
  features : List Str
  tags : Option (List Str)
  category : Option Str
  subcategory : Option Str

/-- `searchProduct`: empty term shows everything, undefined product
matches nothing, short normalized term matches nothing, otherwise an
OR across the product's fields (optional fields guarded by truthiness). -/
def searchProduct (product : Option SearchableProduct) (searchTerm : Option Str) : Bool :=
  match searchTerm with
  | none => true
  | some st =>
    if st = [] then true
    else if (jsTrim st).length = 0 then true
    else
      match product with
      | none => false
      | some p =>
        if (normalizeSearchText (some st)).length < 2 then false
        else if matchesSearch (some st) (some p.name) then true
        else if matchesSearch (some st) (some p.nameEn) then true
        else if matchesSearch (some st) (some p.description) then true
        else if (match p.descriptionEn with
                 | some d => !d.isEmpty && matchesSearch (some st) (some d)
                 | none => false) then true
        else if matchesSearchArray (some st) (some p.colors) then true
        else if matchesSearchArray (some st) (some p.materials) then true
        else if matchesSearchArray (some st) (some p.features) then true
        else if (match p.tags with
                 | some ts => matchesSearchArray (some st) (some ts)
                 | none => false) then true
        else if (match p.category with
                 | some c => !c.isEmpty && matchesSearch (some st) (some c)
                 | none => false) then true
        else if (match p.subcategory with
                 | some c => !c.isEmpty && matchesSearch (some st) (some c)
                 | none => false) then true
        else false

/-- Characters of a Lean string literal, for the labels `debugSearch`
pushes. -/
def strL (s : String) : Str := s.data

/-- `debugSearch`: the sequence of entries pushed, in push order; it only
examines name, English name, description, colors, materials, features. -/
def debugSearch (product : SearchableProduct) (searchTerm : Option Str) : List Str :=
  (if matchesSearch searchTerm (some product.name)
     then [strL "Name: " ++ product.name] else [])
  ++ (if matchesSearch searchTerm (some product.nameEn)
     then [strL "Name EN: " ++ product.nameEn] else [])
  ++ (if matchesSearch searchTerm (some product.description)
     then [strL "Description"] else [])
  ++ product.colors.filterMap (fun color =>
       if matchesSearch searchTerm (some color)
         then some (strL "Color: " ++ color) else none)
  ++ product.materials.filterMap (fun material =>
       if matchesSearch searchTerm (some material)
         then some (strL "Material: " ++ material) else none)
  ++ product.features.filterMap (fun feature =>
       if matchesSearch searchTerm (some feature)
         then some (strL "Feature: " ++ feature) else none)


/-- A concrete product used to instantiate universally quantified
theorems. -/
def sampleProduct : SearchableProduct :=
  { name := strL "panel"
    nameEn := strL "panel"
    description := strL "a simple panel"
    descriptionEn := none
    colors := [strL "white", strL "black"]
    materials := [strL "oak"]
    features := [strL "led"]
    tags := none
    category := none
    subcategory := none }

/-- A product whose only matching field for the term "chairs" is its
(optional) category. -/
def cexProduct : SearchableProduct :=
  { name := strL "zzz"
    nameEn := strL "yyy"
    description := strL "qqq"
    descriptionEn := none
    colors := []
    materials := []
    features := []
    tags := none
    category := some (strL "chairs")
    subcategory := none }

/-- Specification-side view of the tokenizer's splitting: the maximal
runs of non-separator characters, in order, with no empty fields. -/
def runsSpec : Str → List Str
  | [] => []
  | [c] => if isSep c then [] else [[c]]
  | c1 :: c2 :: rest =>
    if isSep c1 then runsSpec (c2 :: rest)
    else if isSep c2 then [c1] :: runsSpec (c2 :: rest)
    else
      match runsSpec (c2 :: rest) with
      | [] => [[c1]]
      | h :: t => (c1 :: h) :: t

/-- Characters that can appear in the output of `normalizeCore`:
fixed under lowercasing, NFD, the Greek fold; not marks, not slashes;
whitespace only as a plain space. -/
def NormedChar (c : Char) : Prop :=
  List.lookup c lowerTable = none ∧
  List.lookup c nfdTable = none ∧
  isMark c = false ∧
  List.lookup c greekPairs = none ∧
  c ≠ '/' ∧ c ≠ '\\' ∧
  (isJsWS c = true → c = ' ')

/-- The composed character action of the ten sequential replaces. -/
def gchar (c : Char) : Char := (List.lookup c greekPairs).getD c

/-- No two adjacent characters are both whitespace. -/
def NoAdjWS (l : Str) : Prop :=
  List.Chain' (fun a b => ¬(isJsWS a = true ∧ isJsWS b = true)) l

/-! ### General helper lemmas -/

theorem normalizeSearchText_some (s : Str) :
    normalizeSearchText (some s) = if s = [] then [] else normalizeCore s := rfl

theorem mem_of_lookup_eq_some {α β : Type} [BEq α] [LawfulBEq α]
    {l : List (α × β)} {a : α} {b : β}
    (h : List.lookup a l = some b) : (a, b) ∈ l := by
  induction l with
  | nil => simp at h
  | cons p rest ih =>
    obtain ⟨k, v⟩ := p
    rw [List.lookup_cons] at h
    cases hk : a == k with
    | true =>
      rw [hk] at h
      simp only [Option.some.injEq] at h
      rw [eq_of_beq hk, ← h]
      exact List.mem_cons_self _ _
    | false =>
      rw [hk] at h
      exact List.mem_cons_of_mem _ (ih h)

theorem containsSub_iff {needle hay : Str} :
    containsSub needle hay = true ↔ needle <:+: hay := by
  induction hay with
  | nil =>
    simp [containsSub, List.isEmpty_iff, List.infix_nil]
  | cons c rest ih =>
    simp only [containsSub, Bool.or_eq_true, List.isPrefixOf_iff_prefix, ih,
      List.infix_cons_iff]

theorem containsSub_self (l : Str) : containsSub l l = true :=
  containsSub_iff.mpr List.infix_rfl

/-- A non-degenerate normalized search term forces a truthy input. -/
theorem falsyS_eq_false_of_len {s : Option Str}
    (h : 2 ≤ (normalizeSearchText s).length) : falsyS s = false := by
  match s with
  | none => simp [normalizeSearchText] at h
  | some [] => simp [normalizeSearchText] at h
  | some (c :: r) => rfl

/-! ### C4 -/

/-- C4: `matchesSearch` fails closed — it returns `false` whenever the
search term is empty/undefined, or the target text is empty/undefined, or
the normalized search term has length < 2. -/
theorem C4_matchesSearch_fails_closed (searchTerm targetText : Option Str)
    (h : falsyS searchTerm = true ∨ falsyS targetText = true ∨
         (normalizeSearchText searchTerm).length < 2) :
    matchesSearch searchTerm targetText = false := by
  unfold matchesSearch
  rcases h with h | h | h
  · simp [h]
  · simp [h]
  · by_cases hs : falsyS searchTerm = true
    · simp [hs]
    · by_cases ht : falsyS targetText = true
      · simp [ht]
      · simp only [Bool.not_eq_true] at hs ht
        simp [hs, ht, h]

theorem C4_witness :
    matchesSearch (some (strL "a")) (some (strL "anything")) = false :=
  C4_matchesSearch_fails_closed _ _ (Or.inr (Or.inr (by decide)))

/-! ### C10 -/

/-- C10: `matchesSearch` is reflexive on valid terms — any string whose
normalized form has length at least 2 matches itself (via the substring
strategy). -/
theorem C10_matchesSearch_refl (s : Option Str)
    (h : 2 ≤ (normalizeSearchText s).length) :
    matchesSearch s s = true := by
  have hs : falsyS s = false := falsyS_eq_false_of_len h
  unfold matchesSearch
  simp [hs, Nat.not_lt.mpr h, containsSub_self]

theorem C10_witness : matchesSearch (some (strL "ab")) (some (strL "ab")) = true :=
  C10_matchesSearch_refl _ (by decide)

/-! ### C9 -/

/-- C9: every public function is total over its documented input domain,
including empty/undefined strings, and degrades to the documented
boolean/empty-sequence/empty-string result rather than failing.  (In this
embedding totality itself holds by construction — every definition is a
total function mirroring the guarded source — and this theorem verifies
the degraded outputs on all empty/undefined inputs.) -/
theorem C9_totality :
    (normalizeSearchText none = [] ∧ normalizeSearchText (some []) = []) ∧
    (tokenize none = [] ∧ tokenize (some []) = []) ∧
    (∀ t, matchesSearch none t = false ∧ matchesSearch (some []) t = false ∧
          matchesSearch t none = false ∧ matchesSearch t (some []) = false) ∧
    (∀ its, matchesSearchArray none its = false ∧
            matchesSearchArray (some []) its = false) ∧
    (∀ t, matchesSearchArray t none = false ∧
          matchesSearchArray t (some ([] : List Str)) = false) ∧
    (∀ p, searchProduct p none = true ∧ searchProduct p (some []) = true) ∧
    (∀ p, debugSearch p none = [] ∧ debugSearch p (some []) = []) := by
  refine ⟨⟨rfl, rfl⟩, ⟨rfl, rfl⟩, ?_, ?_, ?_, ?_, ?_⟩
  · intro t
    refine ⟨rfl, rfl, ?_, ?_⟩ <;>
      · unfold matchesSearch
        cases h : falsyS t <;> simp [h, falsyS]
  · intro its
    exact ⟨rfl, rfl⟩
  · intro t
    constructor <;>
      · unfold matchesSearchArray
        cases h : falsyS t <;> simp [h]
  · intro p
    cases p <;> exact ⟨rfl, rfl⟩
  · intro p
    constructor <;> simp [debugSearch, matchesSearch, falsyS]

/-! ### C5 -/

/-- C5: `searchProduct` boundary behavior, checked in order: an
empty/undefined or whitespace-only search term yields `true` for every
product (an undefined one included); past that check, an undefined
product yields `false`; past that, a term whose normalized form is
shorter than 2 yields `false` for every product. -/
theorem C5_searchProduct_boundaries (product : Option SearchableProduct) :
    (∀ searchTerm, falsyS searchTerm = true →
       searchProduct product searchTerm = true) ∧
    (∀ s : Str, (jsTrim s).length = 0 →
       searchProduct product (some s) = true) ∧
    (∀ s : Str, (jsTrim s).length ≠ 0 →
       searchProduct none (some s) = false) ∧
    (∀ s : Str, (jsTrim s).length ≠ 0 →
       (normalizeSearchText (some s)).length < 2 →
       searchProduct product (some s) = false) := by
  refine ⟨?_, ?_, ?_, ?_⟩
  · intro searchTerm h
    match searchTerm with
    | none => rfl
    | some s =>
      have : s = [] := by
        simpa [falsyS, List.isEmpty_iff] using h
      subst this
      rfl
  · intro s h
    unfold searchProduct
    by_cases hs : s = []
    · simp [hs]
    · simp [hs, h]
  · intro s h
    have hs : s ≠ [] := by
      rintro rfl
      exact h rfl
    unfold searchProduct
    simp [hs, h]
  · intro s h hlen
    have hs : s ≠ [] := by
      rintro rfl
      exact h rfl
    unfold searchProduct
    cases product with
    | none => simp [hs, h]
    | some p => simp [hs, h, hlen]

theorem C5_witness :
    searchProduct (some sampleProduct) none = true ∧
    searchProduct none (some (strL " ")) = true ∧
    searchProduct none (some (strL "chair")) = false ∧
    searchProduct (some sampleProduct) (some (strL "x")) = false :=
  ⟨(C5_searchProduct_boundaries (some sampleProduct)).1 none rfl,
   (C5_searchProduct_boundaries none).2.1 _ (by decide),
   (C5_searchProduct_boundaries none).2.2.1 _ (by decide),
   (C5_searchProduct_boundaries (some sampleProduct)).2.2.2 _ (by decide) (by decide)⟩

/-! ### C3 -/

/-- C3: for non-empty inputs whose normalized search term has length at
least 2, `matchesSearch` succeeds iff the normalized target contains the
normalized search term as a substring, or both tokenizations are
non-empty and every search token matches at least one target token
(equality, or prefix with search-token length ≥ 3, or substring with
search-token length ≥ 4). -/
theorem C3_matchesSearch_iff (searchTerm targetText : Option Str)
    (hs : falsyS searchTerm = false) (ht : falsyS targetText = false)
    (hlen : 2 ≤ (normalizeSearchText searchTerm).length) :
    matchesSearch searchTerm targetText = true ↔
      (normalizeSearchText searchTerm <:+: normalizeSearchText targetText ∨
       (tokenize searchTerm ≠ [] ∧ tokenize targetText ≠ [] ∧
        ∀ st ∈ tokenize searchTerm, ∃ tt ∈ tokenize targetText,
          tt = st ∨ (st <+: tt ∧ 3 ≤ st.length) ∨
          (st <:+: tt ∧ 4 ≤ st.length))) := by
  unfold matchesSearch
  by_cases hsub : containsSub (normalizeSearchText searchTerm)
      (normalizeSearchText targetText) = true
  · simp [hs, ht, Nat.not_lt.mpr hlen, hsub, containsSub_iff.mp hsub]
  · have hni : ¬ (normalizeSearchText searchTerm <:+: normalizeSearchText targetText) :=
      fun hcontra => hsub (containsSub_iff.mpr hcontra)
    by_cases hst : tokenize searchTerm = []
    · simp [hs, ht, Nat.not_lt.mpr hlen, hsub, hni, hst]
    · by_cases htt : tokenize targetText = []
      · simp [hs, ht, Nat.not_lt.mpr hlen, hsub, hni, hst, htt]
      · simp [hs, ht, Nat.not_lt.mpr hlen, hsub, hni, hst, htt,
          List.length_eq_zero, List.all_eq_true, List.any_eq_true,
          List.isPrefixOf_iff_prefix, containsSub_iff, or_assoc]

theorem C3_witness :
    matchesSearch (some (strL "white")) (some (strL "whiteboard panel")) = true :=
  (C3_matchesSearch_iff _ _ (by decide) (by decide) (by decide)).mpr
    (Or.inl (containsSub_iff.mp (by decide)))

/-! ### Helper lemmas about trimming and empty normalization -/

theorem jsTrim_eq_nil_iff {l : Str} :
    jsTrim l = [] ↔ ∀ c ∈ l, isJsWS c = true := by
  unfold jsTrim
  rw [List.reverse_eq_nil_iff, List.dropWhile_eq_nil_iff]
  constructor
  · intro h c hc
    rcases List.mem_append.mp
        ((List.takeWhile_append_dropWhile (p := isJsWS) (l := l)) ▸ hc) with h1 | h1
    · exact List.mem_takeWhile_imp h1
    · exact h _ (List.mem_reverse.mpr h1)
  · intro h c hc
    exact h _ ((List.dropWhile_sublist _).subset (List.mem_reverse.mp hc))

theorem isJsWS_jsToLower (c : Char) : isJsWS (jsToLower c) = isJsWS c := by
  unfold jsToLower
  cases h : List.lookup c lowerTable with
  | none => rfl
  | some d =>
    have hd := mem_of_lookup_eq_some h
    have hfact : ∀ p ∈ lowerTable, isJsWS p.1 = false ∧ isJsWS p.2 = false := by
      decide
    have h2 := hfact _ hd
    simp only [Option.getD_some]
    rw [h2.1, h2.2]

theorem normalizeCore_eq_nil_of_trim {s : Str} (h : jsTrim s = []) :
    normalizeCore s = [] := by
  have hws : ∀ c ∈ s, isJsWS c = true := jsTrim_eq_nil_iff.mp h
  have h2 : jsTrim (s.map jsToLower) = [] := by
    rw [jsTrim_eq_nil_iff]
    intro c hc
    obtain ⟨d, hd, rfl⟩ := List.mem_map.mp hc
    rw [isJsWS_jsToLower]
    exact hws d hd
  unfold normalizeCore
  rw [h2]
  rfl

theorem trim_facts_of_normalize_len {s : Str}
    (h : 2 ≤ (normalizeSearchText (some s)).length) :
    s ≠ [] ∧ (jsTrim s).length ≠ 0 := by
  have hne : s ≠ [] := by
    rintro rfl
    simp [normalizeSearchText] at h
  refine ⟨hne, fun h0 => ?_⟩
  have htr : jsTrim s = [] := List.length_eq_zero.mp h0
  have hz : normalizeSearchText (some s) = [] := by
    unfold normalizeSearchText
    simp [hne, normalizeCore_eq_nil_of_trim htr]
  rw [hz] at h
  simp at h

/-! ### C6 -/

theorem strGuard_eq (s : Str) (o : Option Str) :
    (match o with
     | some d => !d.isEmpty && matchesSearch (some s) (some d)
     | none => false) = matchesSearch (some s) o := by
  match o with
  | none =>
    unfold matchesSearch
    cases h : falsyS (some s) <;> simp [h, falsyS]
  | some [] =>
    unfold matchesSearch
    cases h : falsyS (some s) <;> simp [h, falsyS, List.isEmpty]
  | some (c :: d) =>
    simp [List.isEmpty]

theorem arrGuard_eq (s : Str) (o : Option (List Str)) :
    (match o with
     | some ts => matchesSearchArray (some s) (some ts)
     | none => false) = matchesSearchArray (some s) o := by
  match o with
  | none =>
    unfold matchesSearchArray
    cases h : falsyS (some s) <;> simp [h]
  | some ts => rfl

theorem aux_if_or {b r : Bool} :
    (if b = true then true else r) = true ↔ (b = true ∨ r = true) := by
  cases b <;> simp

/-- C6: for a defined product and a search term whose normalized form has
length at least 2, `searchProduct` succeeds iff `matchesSearch` (or
`matchesSearchArray` for the array fields) succeeds on at least one of
the product's fields; absent optional fields never match. -/
theorem C6_searchProduct_fields (p : SearchableProduct) (s : Str)
    (hlen : 2 ≤ (normalizeSearchText (some s)).length) :
    searchProduct (some p) (some s) = true ↔
      (matchesSearch (some s) (some p.name) = true ∨
       matchesSearch (some s) (some p.nameEn) = true ∨
       matchesSearch (some s) (some p.description) = true ∨
       matchesSearch (some s) p.descriptionEn = true ∨
       matchesSearchArray (some s) (some p.colors) = true ∨
       matchesSearchArray (some s) (some p.materials) = true ∨
       matchesSearchArray (some s) (some p.features) = true ∨
       matchesSearchArray (some s) p.tags = true ∨
       matchesSearch (some s) p.category = true ∨
       matchesSearch (some s) p.subcategory = true) := by
  obtain ⟨hne, htr⟩ := trim_facts_of_normalize_len hlen
  show (if s = [] then true
        else if (jsTrim s).length = 0 then true
        else if (normalizeSearchText (some s)).length < 2 then false
        else if matchesSearch (some s) (some p.name) = true then true
        else if matchesSearch (some s) (some p.nameEn) = true then true
        else if matchesSearch (some s) (some p.description) = true then true
        else if (match p.descriptionEn with
                 | some d => !d.isEmpty && matchesSearch (some s) (some d)
                 | none => false) = true then true
        else if matchesSearchArray (some s) (some p.colors) = true then true
        else if matchesSearchArray (some s) (some p.materials) = true then true
        else if matchesSearchArray (some s) (some p.features) = true then true
        else if (match p.tags with
                 | some ts => matchesSearchArray (some s) (some ts)
                 | none => false) = true then true
        else if (match p.category with
                 | some c => !c.isEmpty && matchesSearch (some s) (some c)
                 | none => false) = true then true
        else if (match p.subcategory with
                 | some c => !c.isEmpty && matchesSearch (some s) (some c)
                 | none => false) = true then true
        else false) = true ↔ _
  rw [if_neg hne, if_neg htr, if_neg (Nat.not_lt.mpr hlen),
    strGuard_eq, arrGuard_eq, strGuard_eq, strGuard_eq]
  rw [aux_if_or, aux_if_or, aux_if_or, aux_if_or, aux_if_or,
    aux_if_or, aux_if_or, aux_if_or, aux_if_or, aux_if_or]
  simp

theorem C6_witness :
    searchProduct (some sampleProduct) (some (strL "white")) = true :=
  (C6_searchProduct_fields sampleProduct _ (by decide)).mpr
    (Or.inr (Or.inr (Or.inr (Or.inr (Or.inl (by decide))))))

/-! ### C2 -/

/-- C2 counterexample: the category of `cexProduct` matches the term
"chairs" (and `searchProduct` accepts the product), yet `debugSearch`
reports no matches at all — it never examines `descriptionEn`, `tags`,
`category` or `subcategory`. -/
theorem C2_counterexample :
    matchesSearch (some (strL "chairs")) cexProduct.category = true ∧
    searchProduct (some cexProduct) (some (strL "chairs")) = true ∧
    debugSearch cexProduct (some (strL "chairs")) = [] := by
  decide

/-- C2 (amended): `debugSearch` does not short-circuit over the fields it
checks — name, English name, description, and every color, material and
feature — and its result contains one entry for each of those that
matches; it omits the English description, tags, category and
subcategory entirely. -/
theorem C2_debugSearch_checked_fields (p : SearchableProduct) (term : Option Str) :
    (matchesSearch term (some p.name) = true →
       strL "Name: " ++ p.name ∈ debugSearch p term) ∧
    (matchesSearch term (some p.nameEn) = true →
       strL "Name EN: " ++ p.nameEn ∈ debugSearch p term) ∧
    (matchesSearch term (some p.description) = true →
       strL "Description" ∈ debugSearch p term) ∧
    (∀ c ∈ p.colors, matchesSearch term (some c) = true →
       strL "Color: " ++ c ∈ debugSearch p term) ∧
    (∀ m ∈ p.materials, matchesSearch term (some m) = true →
       strL "Material: " ++ m ∈ debugSearch p term) ∧
    (∀ f ∈ p.features, matchesSearch term (some f) = true →
       strL "Feature: " ++ f ∈ debugSearch p term) := by
  refine ⟨fun h => ?_, fun h => ?_, fun h => ?_,
          fun c hc h => ?_, fun m hm h => ?_, fun f hf h => ?_⟩
  · simp [debugSearch, h]
  · simp [debugSearch, h]
  · simp [debugSearch, h]
  · have hmem : strL "Color: " ++ c ∈ p.colors.filterMap (fun color =>
        if matchesSearch term (some color) = true
          then some (strL "Color: " ++ color) else none) :=
      List.mem_filterMap.mpr ⟨c, hc, by rw [if_pos h]⟩
    simp only [debugSearch, List.mem_append]
    tauto
  · have hmem : strL "Material: " ++ m ∈ p.materials.filterMap (fun material =>
        if matchesSearch term (some material) = true
          then some (strL "Material: " ++ material) else none) :=
      List.mem_filterMap.mpr ⟨m, hm, by rw [if_pos h]⟩
    simp only [debugSearch, List.mem_append]
    tauto
  · have hmem : strL "Feature: " ++ f ∈ p.features.filterMap (fun feature =>
        if matchesSearch term (some feature) = true
          then some (strL "Feature: " ++ feature) else none) :=
      List.mem_filterMap.mpr ⟨f, hf, by rw [if_pos h]⟩
    simp only [debugSearch, List.mem_append]
    tauto

theorem C2_witness :
    strL "Color: " ++ strL "white" ∈ debugSearch sampleProduct (some (strL "white")) :=
  (C2_debugSearch_checked_fields sampleProduct _).2.2.2.1 _ (by decide) (by decide)

/-! ### C7 -/

theorem splitSeps_cons_sep {r : Str} :
    ∀ {c : Char}, isSep c = true → ∃ T, splitSeps (c :: r) = [] :: T := by
  induction r with
  | nil =>
    intro c h
    exact ⟨[[]], by simp [splitSeps, h]⟩
  | cons c2 rest ih =>
    intro c h
    by_cases h2 : isSep c2 = true
    · obtain ⟨T, hT⟩ := ih h2
      exact ⟨T, by simp [splitSeps, h, h2, hT]⟩
    · exact ⟨splitSeps (c2 :: rest), by simp [splitSeps, h, h2]⟩

theorem splitSeps_cons_nonsep {c : Char} {r : Str} (h : isSep c = false) :
    ∃ h2 T, splitSeps (c :: r) = (c :: h2) :: T := by
  match r with
  | [] => exact ⟨[], [], by simp [splitSeps, h]⟩
  | c2 :: rest =>
    rcases hsp : splitSeps (c2 :: rest) with _ | ⟨hd, tl⟩
    · exact ⟨[], [], by simp [splitSeps, h, hsp]⟩
    · exact ⟨hd, tl, by simp [splitSeps, h, hsp]⟩

theorem splitSeps_filter_eq_runsSpec (l : Str) :
    (splitSeps l).filter (fun t => !t.isEmpty) = runsSpec l := by
  induction l with
  | nil => rfl
  | cons c1 tl ih =>
    cases tl with
    | nil =>
      by_cases h : isSep c1 = true
      · simp [splitSeps, runsSpec, h]
      · simp [splitSeps, runsSpec, h]
    | cons c2 rest =>
      by_cases h1 : isSep c1 = true
      · by_cases h2 : isSep c2 = true
        · simpa [splitSeps, runsSpec, h1, h2] using ih
        · simpa [splitSeps, runsSpec, h1, h2] using ih
      · by_cases h2 : isSep c2 = true
        · obtain ⟨T, hT⟩ := splitSeps_cons_sep (r := rest) h2
          rw [hT] at ih
          simp at ih
          simp [splitSeps, runsSpec, h1, h2, hT, ih]
        · have h2f : isSep c2 = false := by simpa using h2
          obtain ⟨hd, T, hT⟩ := splitSeps_cons_nonsep (r := rest) h2f
          rw [hT] at ih
          simp at ih
          simp [splitSeps, runsSpec, h1, h2, hT, ← ih]

/-- C7: `tokenize` normalizes its input, splits it into the maximal runs
of non-separator characters (separators: whitespace, hyphen, slash,
comma), and keeps, in order, exactly the runs of length at least 2; in
particular the two documented examples hold. -/
theorem C7_tokenize_characterization :
    (∀ text : Option Str, tokenize text =
      (runsSpec (normalizeSearchText text)).filter (fun tok => 2 ≤ tok.length)) ∧
    tokenize (some (strL "white/led-light, panel")) =
      [strL "white", strL "led", strL "light", strL "panel"] ∧
    tokenize (some (strL "a b")) = [] := by
  refine ⟨fun text => ?_, by decide, by decide⟩
  unfold tokenize
  rw [← splitSeps_filter_eq_runsSpec, List.filter_filter]
  apply List.filter_congr
  intro tok _
  cases tok <;> simp

/-! ### Character-level invariants of the normalization pipeline -/

theorem normedChar_space : NormedChar ' ' :=
  ⟨by decide, by decide, by decide, by decide, by decide, by decide, fun _ => rfl⟩

theorem mem_jsTrim {l : Str} {c : Char} (h : c ∈ jsTrim l) : c ∈ l := by
  unfold jsTrim at h
  have h1 := List.mem_reverse.mp h
  have h2 := (List.dropWhile_sublist _).subset h1
  have h3 := List.mem_reverse.mp h2
  exact (List.dropWhile_sublist _).subset h3

theorem mem_slashToSpace {l : Str} {c : Char} (h : c ∈ slashToSpace l) :
    c = ' ' ∨ (c ∈ l ∧ c ≠ '/' ∧ c ≠ '\\') := by
  obtain ⟨d, hd, he⟩ := List.mem_map.mp h
  by_cases h1 : d = '/'
  · left; rw [← he]; simp [h1]
  · by_cases h2 : d = '\\'
    · left; rw [← he]; simp [h2]
    · right
      have hdc : d = c := by rw [← he]; simp [h1, h2]
      subst hdc
      exact ⟨hd, h1, h2⟩

theorem mem_collapseWS (l : Str) (c : Char) :
    c ∈ collapseWS l → c = ' ' ∨ (c ∈ l ∧ isJsWS c = false) := by
  induction l with
  | nil => intro h; simp [collapseWS] at h
  | cons c1 tl ih =>
    cases tl with
    | nil =>
      intro h
      by_cases h1 : isJsWS c1 = true
      · rw [show collapseWS [c1] = [' '] from by simp [collapseWS, h1]] at h
        simp at h
        exact Or.inl h
      · rw [show collapseWS [c1] = [c1] from by simp [collapseWS, h1]] at h
        simp at h
        subst h
        exact Or.inr ⟨List.mem_singleton.mpr rfl, by simpa using h1⟩
    | cons c2 rest =>
      intro h
      by_cases h1 : isJsWS c1 = true
      · by_cases h2 : isJsWS c2 = true
        · rw [show collapseWS (c1 :: c2 :: rest) = collapseWS (c2 :: rest) from
            by simp [collapseWS, h1, h2]] at h
          rcases ih h with h3 | ⟨hm, hf⟩
          · exact Or.inl h3
          · exact Or.inr ⟨List.mem_cons_of_mem _ hm, hf⟩
        · rw [show collapseWS (c1 :: c2 :: rest) = ' ' :: collapseWS (c2 :: rest) from
            by simp [collapseWS, h1, h2]] at h
          rcases List.mem_cons.mp h with h3 | h3
          · exact Or.inl h3
          · rcases ih h3 with h4 | ⟨hm, hf⟩
            · exact Or.inl h4
            · exact Or.inr ⟨List.mem_cons_of_mem _ hm, hf⟩
      · rw [show collapseWS (c1 :: c2 :: rest) = c1 :: collapseWS (c2 :: rest) from
          by simp [collapseWS, h1]] at h
        rcases List.mem_cons.mp h with h3 | h3
        · subst h3
          exact Or.inr ⟨List.mem_cons_self _ _, by simpa using h1⟩
        · rcases ih h3 with h4 | ⟨hm, hf⟩
          · exact Or.inl h4
          · exact Or.inr ⟨List.mem_cons_of_mem _ hm, hf⟩

theorem foldl_replaceAll_eq_map (ps : List (Char × Char)) :
    ∀ s : Str, ps.foldl (fun acc p => replaceAll p.1 p.2 acc) s =
      s.map (fun c => ps.foldl (fun d p => if d = p.1 then p.2 else d) c) := by
  induction ps with
  | nil =>
    intro s
    simp
  | cons p rest ih =>
    intro s
    simp only [List.foldl_cons]
    rw [ih (replaceAll p.1 p.2 s)]
    unfold replaceAll
    rw [List.map_map]
    rfl

theorem foldl_step_of_no_key (ps : List (Char × Char)) :
    ∀ d : Char, (∀ q ∈ ps, d ≠ q.1) →
      ps.foldl (fun e p => if e = p.1 then p.2 else e) d = d := by
  induction ps with
  | nil => intro d _; rfl
  | cons p rest ih =>
    intro d hd
    simp only [List.foldl_cons]
    rw [if_neg (hd p (List.mem_cons_self _ _))]
    exact ih d (fun q hq => hd q (List.mem_cons_of_mem _ hq))

theorem foldl_step_eq_lookup (ps : List (Char × Char)) :
    (∀ p ∈ ps, ∀ q ∈ ps, p.2 ≠ q.1) →
    ∀ c : Char, ps.foldl (fun d p => if d = p.1 then p.2 else d) c =
      (List.lookup c ps).getD c := by
  induction ps with
  | nil => intro _ c; rfl
  | cons p rest ih =>
    obtain ⟨k, v⟩ := p
    intro hps c
    simp only [List.foldl_cons]
    by_cases hc : c = k
    · rw [if_pos (by simpa using hc)]
      have hv : rest.foldl (fun e p => if e = p.1 then p.2 else e) v = v :=
        foldl_step_of_no_key rest v (fun q hq =>
          hps (k, v) (List.mem_cons_self _ _) q (List.mem_cons_of_mem _ hq))
      subst hc
      rw [hv, List.lookup_cons]
      simp
    · rw [if_neg (by simpa using hc)]
      rw [ih (fun a ha b hb => hps a (List.mem_cons_of_mem _ ha) b
        (List.mem_cons_of_mem _ hb)) c]
      rw [List.lookup_cons]
      have hbeq : (c == k) = false := beq_eq_false_iff_ne.mpr hc
      simp [hbeq]

theorem greekPairs_vals_not_keys :
    ∀ p ∈ greekPairs, ∀ q ∈ greekPairs, p.2 ≠ q.1 := by decide

theorem greekFold_eq_map (s : Str) : greekFold s = s.map gchar := by
  unfold greekFold
  rw [foldl_replaceAll_eq_map]
  simp only [foldl_step_eq_lookup greekPairs greekPairs_vals_not_keys]
  rfl

theorem lower_stage {s : Str} {c : Char} (h : c ∈ s.map jsToLower) :
    List.lookup c lowerTable = none := by
  obtain ⟨d, _, he⟩ := List.mem_map.mp h
  cases hl : List.lookup d lowerTable with
  | none =>
    rw [← he]
    unfold jsToLower
    rw [hl]
    exact hl
  | some e =>
    have hmem := mem_of_lookup_eq_some hl
    have hfact : ∀ p ∈ lowerTable, List.lookup p.2 lowerTable = none := by decide
    have h2 := hfact _ hmem
    rw [← he]
    unfold jsToLower
    rw [hl]
    exact h2

theorem nfd_stage {l : Str} {c : Char}
    (hprev : ∀ d ∈ l, List.lookup d lowerTable = none)
    (h : c ∈ nfdStr l) :
    List.lookup c lowerTable = none ∧ List.lookup c nfdTable = none := by
  obtain ⟨d, hd, hc⟩ := List.mem_flatMap.mp h
  have hdl := hprev d hd
  unfold jsNFD at hc
  cases hl : List.lookup d nfdTable with
  | none =>
    rw [hl] at hc
    simp at hc
    subst hc
    exact ⟨hdl, hl⟩
  | some out =>
    rw [hl] at hc
    simp at hc
    have hmem := mem_of_lookup_eq_some hl
    have hfact : ∀ p ∈ nfdTable, List.lookup p.1 lowerTable = none →
        ∀ c2 ∈ p.2, List.lookup c2 lowerTable = none ∧
          List.lookup c2 nfdTable = none := by decide
    exact hfact _ hmem hdl _ hc

theorem strip_stage {l : Str} {c : Char}
    (hprev : ∀ d ∈ l, List.lookup d lowerTable = none ∧
      List.lookup d nfdTable = none)
    (h : c ∈ stripMarks l) :
    List.lookup c lowerTable = none ∧ List.lookup c nfdTable = none ∧
      isMark c = false := by
  unfold stripMarks at h
  obtain ⟨hm, hf⟩ := List.mem_filter.mp h
  exact ⟨(hprev c hm).1, (hprev c hm).2, by simpa using hf⟩

theorem greek_stage {l : Str} {c : Char}
    (hprev : ∀ d ∈ l, List.lookup d lowerTable = none ∧
      List.lookup d nfdTable = none ∧ isMark d = false)
    (h : c ∈ greekFold l) :
    List.lookup c lowerTable = none ∧ List.lookup c nfdTable = none ∧
      isMark c = false ∧ List.lookup c greekPairs = none := by
  rw [greekFold_eq_map] at h
  obtain ⟨d, hd, he⟩ := List.mem_map.mp h
  unfold gchar at he
  cases hl : List.lookup d greekPairs with
  | none =>
    rw [hl] at he
    simp at he
    subst he
    exact ⟨(hprev d hd).1, (hprev d hd).2.1, (hprev d hd).2.2, hl⟩
  | some v =>
    rw [hl] at he
    simp at he
    subst he
    have hmem := mem_of_lookup_eq_some hl
    have hfact : ∀ p ∈ greekPairs, List.lookup p.2 lowerTable = none ∧
        List.lookup p.2 nfdTable = none ∧ isMark p.2 = false ∧
        List.lookup p.2 greekPairs = none := by decide
    exact hfact _ hmem

/-- Every character of the normalization pipeline's output satisfies the
`NormedChar` invariant. -/
theorem normalizeCore_normed (s : Str) :
    ∀ c ∈ normalizeCore s, NormedChar c := by
  have h1 : ∀ c ∈ s.map jsToLower, List.lookup c lowerTable = none :=
    fun c hc => lower_stage hc
  have h2 : ∀ c ∈ jsTrim (s.map jsToLower), List.lookup c lowerTable = none :=
    fun c hc => h1 c (mem_jsTrim hc)
  have h3 : ∀ c ∈ nfdStr (jsTrim (s.map jsToLower)),
      List.lookup c lowerTable = none ∧ List.lookup c nfdTable = none :=
    fun c hc => nfd_stage h2 hc
  have h4 : ∀ c ∈ stripMarks (nfdStr (jsTrim (s.map jsToLower))),
      List.lookup c lowerTable = none ∧ List.lookup c nfdTable = none ∧
        isMark c = false :=
    fun c hc => strip_stage h3 hc
  have h5 : ∀ c ∈ greekFold (stripMarks (nfdStr (jsTrim (s.map jsToLower)))),
      List.lookup c lowerTable = none ∧ List.lookup c nfdTable = none ∧
        isMark c = false ∧ List.lookup c greekPairs = none :=
    fun c hc => greek_stage h4 hc
  have h6 : ∀ c ∈ slashToSpace
      (greekFold (stripMarks (nfdStr (jsTrim (s.map jsToLower))))),
      List.lookup c lowerTable = none ∧ List.lookup c nfdTable = none ∧
        isMark c = false ∧ List.lookup c greekPairs = none ∧
        c ≠ '/' ∧ c ≠ '\\' := by
    intro c hc
    rcases mem_slashToSpace hc with rfl | ⟨hm, hs1, hs2⟩
    · exact ⟨by decide, by decide, by decide, by decide, by decide, by decide⟩
    · obtain ⟨a1, a2, a3, a4⟩ := h5 c hm
      exact ⟨a1, a2, a3, a4, hs1, hs2⟩
  intro c hc
  unfold normalizeCore at hc
  rcases mem_collapseWS _ _ hc with rfl | ⟨hz, hwsf⟩
  · exact normedChar_space
  · obtain ⟨a1, a2, a3, a4, a5, a6⟩ := h6 c hz
    exact ⟨a1, a2, a3, a4, a5, a6, fun hw => absurd hw (by simp [hwsf])⟩

/-! ### No-adjacent-whitespace structure of collapsed output -/

theorem collapseWS_head_nonws {c : Char} {r : Str} (h : isJsWS c = false) :
    (collapseWS (c :: r)).head? = some c := by
  cases r with
  | nil => simp [collapseWS, h]
  | cons c2 rest => simp [collapseWS, h]

theorem noAdjWS_collapseWS (l : Str) : NoAdjWS (collapseWS l) := by
  induction l with
  | nil => simp [collapseWS, NoAdjWS]
  | cons c1 tl ih =>
    cases tl with
    | nil =>
      by_cases h1 : isJsWS c1 = true <;> simp [collapseWS, h1, NoAdjWS]
    | cons c2 rest =>
      by_cases h1 : isJsWS c1 = true
      · by_cases h2 : isJsWS c2 = true
        · rw [show collapseWS (c1 :: c2 :: rest) = collapseWS (c2 :: rest) from
            by simp [collapseWS, h1, h2]]
          exact ih
        · rw [show collapseWS (c1 :: c2 :: rest) = ' ' :: collapseWS (c2 :: rest) from
            by simp [collapseWS, h1, h2]]
          rw [NoAdjWS, List.chain'_cons']
          refine ⟨?_, ih⟩
          intro y hy
          rw [collapseWS_head_nonws (by simpa using h2)] at hy
          simp only [Option.mem_def, Option.some.injEq] at hy
          subst hy
          exact fun hcon => (by simpa using h2 : ¬ isJsWS c2 = true) hcon.2
      · rw [show collapseWS (c1 :: c2 :: rest) = c1 :: collapseWS (c2 :: rest) from
          by simp [collapseWS, h1]]
        rw [NoAdjWS, List.chain'_cons']
        refine ⟨?_, ih⟩
        intro y _
        exact fun hcon => (by simpa using h1 : ¬ isJsWS c1 = true) hcon.1

theorem chain_dropWhile {R : Char → Char → Prop} {l : Str}
    (h : List.Chain' R l) (p : Char → Bool) :
    List.Chain' R (l.dropWhile p) := by
  obtain ⟨t, ht⟩ := List.dropWhile_suffix (l := l) p
  rw [← ht] at h
  exact (List.chain'_append.mp h).2.1

theorem chain_reverse_symm {R : Char → Char → Prop}
    (hsym : ∀ a b, R a b → R b a) {l : Str} (h : List.Chain' R l) :
    List.Chain' R l.reverse := by
  rw [List.chain'_reverse]
  refine List.Chain'.imp ?_ h
  intro a b hab
  exact hsym a b hab

theorem noAdjWS_jsTrim {l : Str} (h : NoAdjWS l) : NoAdjWS (jsTrim l) := by
  unfold jsTrim
  have hsym : ∀ a b : Char, (¬(isJsWS a = true ∧ isJsWS b = true)) →
      ¬(isJsWS b = true ∧ isJsWS a = true) :=
    fun a b hab hcon => hab ⟨hcon.2, hcon.1⟩
  exact chain_reverse_symm hsym
    (chain_dropWhile (chain_reverse_symm hsym (chain_dropWhile h isJsWS)) isJsWS)

/-! ### The pipeline is the identity on already-normalized text -/

theorem map_id_of (f : Char → Char) :
    ∀ l : Str, (∀ c ∈ l, f c = c) → l.map f = l := by
  intro l
  induction l with
  | nil => intro _; rfl
  | cons c tl ih =>
    intro h
    rw [List.map_cons, h c (List.mem_cons_self _ _),
      ih (fun d hd => h d (List.mem_cons_of_mem _ hd))]

theorem jsToLower_fixed {c : Char} (h : List.lookup c lowerTable = none) :
    jsToLower c = c := by
  unfold jsToLower
  rw [h]
  rfl

theorem nfdStr_fixed :
    ∀ l : Str, (∀ c ∈ l, List.lookup c nfdTable = none) → nfdStr l = l := by
  intro l
  induction l with
  | nil => intro _; rfl
  | cons c tl ih =>
    intro h
    unfold nfdStr at ih ⊢
    rw [List.flatMap_cons, ih (fun d hd => h d (List.mem_cons_of_mem _ hd))]
    unfold jsNFD
    rw [h c (List.mem_cons_self _ _)]
    rfl

theorem stripMarks_fixed (l : Str) (h : ∀ c ∈ l, isMark c = false) :
    stripMarks l = l := by
  unfold stripMarks
  refine List.filter_eq_self.mpr fun a ha => ?_
  simp [h a ha]

theorem greekFold_fixed (l : Str)
    (h : ∀ c ∈ l, List.lookup c greekPairs = none) :
    greekFold l = l := by
  rw [greekFold_eq_map]
  refine map_id_of _ _ fun c hc => ?_
  unfold gchar
  rw [h c hc]
  rfl

theorem slashToSpace_fixed (l : Str)
    (h : ∀ c ∈ l, c ≠ '/' ∧ c ≠ '\\') :
    slashToSpace l = l := by
  unfold slashToSpace
  refine map_id_of _ _ fun c hc => ?_
  simp [(h c hc).1, (h c hc).2]

theorem collapseWS_fixed :
    ∀ l : Str, (∀ c ∈ l, isJsWS c = true → c = ' ') → NoAdjWS l →
      collapseWS l = l := by
  intro l
  induction l with
  | nil => intro _ _; rfl
  | cons c1 tl ih =>
    cases tl with
    | nil =>
      intro hws _
      by_cases h1 : isJsWS c1 = true
      · rw [show collapseWS [c1] = [' '] from by simp [collapseWS, h1],
          hws c1 (List.mem_singleton.mpr rfl) h1]
      · simp [collapseWS, h1]
    | cons c2 rest =>
      intro hws hadj
      rw [NoAdjWS, List.chain'_cons] at hadj
      by_cases h1 : isJsWS c1 = true
      · have hc1 : c1 = ' ' := hws c1 (List.mem_cons_self _ _) h1
        have h2 : isJsWS c2 = false := by
          by_contra hcon
          exact hadj.1 ⟨h1, by simpa using hcon⟩
        rw [show collapseWS (c1 :: c2 :: rest) = ' ' :: collapseWS (c2 :: rest) from
          by simp [collapseWS, h1, h2]]
        rw [ih (fun c hc hw => hws c (List.mem_cons_of_mem _ hc) hw) hadj.2, hc1]
      · rw [show collapseWS (c1 :: c2 :: rest) = c1 :: collapseWS (c2 :: rest) from
          by simp [collapseWS, h1]]
        rw [ih (fun c hc hw => hws c (List.mem_cons_of_mem _ hc) hw) hadj.2]

/-- On text satisfying the output invariants, the whole pipeline reduces
to `trim`. -/
theorem normalizeCore_of_normed (t : Str)
    (hn : ∀ c ∈ t, NormedChar c) (hadj : NoAdjWS t) :
    normalizeCore t = jsTrim t := by
  unfold normalizeCore
  rw [map_id_of jsToLower t (fun c hc => jsToLower_fixed (hn c hc).1)]
  have hu : ∀ c ∈ jsTrim t, NormedChar c := fun c hc => hn c (mem_jsTrim hc)
  rw [nfdStr_fixed _ (fun c hc => (hu c hc).2.1)]
  rw [stripMarks_fixed _ (fun c hc => (hu c hc).2.2.1)]
  rw [greekFold_fixed _ (fun c hc => (hu c hc).2.2.2.1)]
  rw [slashToSpace_fixed _ (fun c hc =>
    ⟨(hu c hc).2.2.2.2.1, (hu c hc).2.2.2.2.2.1⟩)]
  exact collapseWS_fixed _ (fun c hc hw => (hu c hc).2.2.2.2.2.2 hw)
    (noAdjWS_jsTrim hadj)

theorem noAdjWS_normalizeCore (s : Str) : NoAdjWS (normalizeCore s) := by
  unfold normalizeCore
  generalize slashToSpace (greekFold (stripMarks (nfdStr (jsTrim (s.map jsToLower))))) = X
  exact noAdjWS_collapseWS X

set_option maxHeartbeats 2000000 in
theorem normalizeCore_twice (s0 : Str) :
    normalizeCore (normalizeCore s0) = jsTrim (normalizeCore s0) :=
  normalizeCore_of_normed (normalizeCore s0) (normalizeCore_normed s0)
    (noAdjWS_normalizeCore s0)

/-! ### C1 -/

/-- C1 counterexample: `normalizeSearchText` is not idempotent.  On the
one-character string "/" it yields " " (the slash becomes a space after
trimming has already happened), and a second application trims that
space away, yielding "". -/
theorem C1_counterexample :
    normalizeSearchText (some (normalizeSearchText (some (strL "/")))) ≠
      normalizeSearchText (some (strL "/")) := by
  decide

/-- C1 (amended): a second application of `normalizeSearchText` is
exactly a `trim` of the first — `normalizeSearchText(normalizeSearchText(s))
== trim(normalizeSearchText(s))` for all `s` — so idempotence holds
precisely when the normalized form carries no leading or trailing
whitespace (slash replacement and mark stripping can expose such
whitespace after the trim step has already run). -/
theorem C1_normalize_double_eq_trim (s : Option Str) :
    normalizeSearchText (some (normalizeSearchText s)) =
      jsTrim (normalizeSearchText s) := by
  match s with
  | none => rfl
  | some s0 =>
    by_cases h0 : s0 = []
    · subst h0; rfl
    · have hts : normalizeSearchText (some s0) = normalizeCore s0 := by
        rw [normalizeSearchText_some, if_neg h0]
      rw [hts]
      by_cases ht : normalizeCore s0 = []
      · rw [ht]; rfl
      · have h1 : normalizeSearchText (some (normalizeCore s0)) =
            normalizeCore (normalizeCore s0) := by
          rw [normalizeSearchText_some, if_neg ht]
        rw [h1]
        exact normalizeCore_twice s0

/-! ### C8 -/

/-- C8: the output of `normalizeSearchText` never contains a combining
diacritical mark (U+0300–U+036F) — accents are stripped from any
alphabet — and the Greek example "ΆΒΓ" (U+0386 U+0392 U+0393) normalizes
to the unaccented lowercase "αβγ" (U+03B1 U+03B2 U+03B3). -/
theorem C8_normalize_strips_marks :
    (∀ text : Option Str,
      (normalizeSearchText text).all
        (fun c => !(0x300 ≤ c.toNat && c.toNat ≤ 0x36F)) = true) ∧
    normalizeSearchText (some [Char.ofNat 0x386, Char.ofNat 0x392, Char.ofNat 0x393]) =
      [Char.ofNat 0x3B1, Char.ofNat 0x3B2, Char.ofNat 0x3B3] := by
  refine ⟨fun text => ?_, by decide⟩
  rw [List.all_eq_true]
  intro c hc
  match text with
  | none => simp [normalizeSearchText] at hc
  | some s =>
    by_cases h0 : s = []
    · subst h0
      simp [normalizeSearchText] at hc
    · have hns : normalizeSearchText (some s) = normalizeCore s := by
        rw [normalizeSearchText_some, if_neg h0]
      rw [hns] at hc
      have hm := (normalizeCore_normed s c hc).2.2.1
      unfold isMark at hm
      simp [hm]

end SearchUtils
